import Mathlib

/-!
Verification of the muxtunnel backend against its specification.

This file gives a shallow embedding of the parts of the TypeScript source
that the checked claims are about, and proves (or refutes) each claim over
that embedding.

Conventions of the embedding:
- JavaScript strings are Lean `String`s; where a function works character
  by character (split / join / substring tests) we work on `List Char`,
  the `.data` of a string.
- Machine numbers that the source only compares and adds are `Int` or
  `Nat`; JSON numbers that the source multiplies by fractional constants
  (frecency scores, settings) are `Rat`.
- A JavaScript `Map` built by insertion is a Lean list in insertion
  order; `Map.get` returns the most recently set binding, so lookups
  search the reversed list.
- File-system reads, `JSON.parse` and the process table are passed in as
  explicit arguments: a function that the source calls on the world
  becomes a parameter of the embedded definition.

Sources embedded (paths in the repository):
- src/claude-sessions.ts : getSessionStatus, checkAndNotify,
  markSessionViewed.
- src/tmux.ts            : extractCmdName, getEffectiveProcessFromTable,
  listSessionsAsync (pane-line parsing, grouping, sorting).
- src/settings.ts        : loadSettings (numeric clamping).
- the sidebar order hook : applyOrder.
- the server entry       : the WebSocket connection handler, frecencyScore
  and the projects resolver.
-/

namespace Muxtunnel

/-! ## Generic character-list helpers

`splitCh` and `joinCh` model JavaScript `String.prototype.split(sep)` and
`Array.prototype.join(sep)` for a one-character separator:
`"".split(":") == [""]`, `":".split(":") == ["", ""]`, and
`[].join(":") == ""`.
-/

def splitCh (sep : Char) : List Char → List (List Char)
  | [] => [[]]
  | c :: cs =>
    match splitCh sep cs with
    | [] => [[]]
    | h :: t => if c = sep then [] :: h :: t else (c :: h) :: t

def joinCh (sep : Char) : List (List Char) → List Char
  | [] => []
  | [l] => l
  | l :: ls => l ++ sep :: joinCh sep ls

/-! ## Generic insertion sort

The source sorts with `Array.prototype.sort(comparator)`; the observable
contract used by the claims is "a permutation of the input, sorted by the
comparator", which insertion sort by the same comparator realises.
-/

def insertSorted {α : Type} (le : α → α → Bool) (x : α) : List α → List α
  | [] => [x]
  | y :: ys => if le x y then x :: y :: ys else y :: insertSorted le x ys

def sortBy {α : Type} (le : α → α → Bool) : List α → List α
  | [] => []
  | x :: xs => insertSorted le x (sortBy le xs)

/-! ## Assistant watcher state (src/claude-sessions.ts)

`SessionStatus` is the derived status `"thinking" | "done" | "idle"`.
`NotifState` is one entry of the module-level `notificationState` map;
`viewedAt` holds the epoch-milliseconds timestamp of `new Date()` (the
source only ever tests it for null, so any numeric stand-in is faithful).
`WatcherState` is the pair of module-level maps, keyed by sessionId.
-/

inductive SessionStatus
  | thinking
  | done
  | idle
deriving DecidableEq, Repr

structure NotifState where
  notified : Bool
  viewedAt : Option Int
deriving DecidableEq, Repr

structure WatcherState where
  notificationState : String → Option NotifState
  previousStatus : String → Option SessionStatus

/-- Embedding of the body of `checkAndNotify` (claude-sessions.ts:271-299)
acting on one `NotifState`, given the freshly derived `status` and the
stored `prevStatus`. The three mutation steps run in source order:
reset `viewedAt` when status leaves done, latch on a thinking-to-done
transition, latch when done and neither notified nor viewed. -/
def checkAndNotifyCore (status : SessionStatus) (prevStatus : Option SessionStatus)
    (state : NotifState) : NotifState :=
  let s1 := if prevStatus = some .done ∧ status ≠ .done then { state with viewedAt := none } else state
  let s2 := if prevStatus = some .thinking ∧ status = .done then { s1 with notified := true } else s1
  if status = .done ∧ s2.notified = false ∧ s2.viewedAt = none then { s2 with notified := true } else s2

/-- Embedding of `checkAndNotify` on the full watcher state. The source
mutates the entry object in place and calls `notificationState.set` only
inside the latch branches; since every read of the map goes through
`get(id) || { notified: false, viewedAt: null }` — the same default used
here — always storing the resulting entry is observationally equal. -/
def checkAndNotify (sessionId : String) (status : SessionStatus) (st : WatcherState) :
    WatcherState :=
  let prev := st.previousStatus sessionId
  let state := (st.notificationState sessionId).getD ⟨false, none⟩
  let state' := checkAndNotifyCore status prev state
  { notificationState := fun id =>
      if id = sessionId then some state' else st.notificationState id
    previousStatus := fun id =>
      if id = sessionId then some status else st.previousStatus id }

/-- Embedding of `markSessionViewed` (claude-sessions.ts:193-198): fetch
the entry or the default, clear `notified`, stamp `viewedAt` with the
current time, store it back. `now` stands for `new Date()`. -/
def markSessionViewed (sessionId : String) (now : Int) (st : WatcherState) : WatcherState :=
  let state := (st.notificationState sessionId).getD ⟨false, none⟩
  { st with notificationState := fun id =>
      if id = sessionId then some { state with notified := false, viewedAt := some now }
      else st.notificationState id }

/-! ## Status derivation (src/claude-sessions.ts:44-105)

`getSessionStatus` reads the last `min(size, 10000)` bytes of the
transcript, keeps the non-empty newline-separated lines of that tail,
and classifies the last one. The parameters stand for the world:
- `parse` models `JSON.parse` followed by reading `.type`: `none` is a
  parse failure (the catch branch), `some t` a parsed object whose
  `type` field is the string `t` (or `none` when absent / not a string,
  in which case every `===` comparison with a string literal is false);
- `fileExists` models `fs.existsSync`;
- `content` is the file body, `mtimeMs` the mtime and `now` `Date.now()`,
  both in milliseconds.
-/
def getSessionStatus (parse : List Char → Option (Option String)) (fileExists : Bool)
    (content : List Char) (mtimeMs now : Int) : SessionStatus :=
  if !fileExists then .idle
  else
    let size := content.length
    let readSize := min size 10000
    let tail := content.drop (size - readSize)
    let lines := (splitCh '\n' tail).filter (fun l => l ≠ [])
    match lines.getLast? with
    | none => .idle
    | some lastLine =>
      match parse lastLine with
      | none => .idle
      | some t =>
        if t = some "summary" then .done
        else if t = some "user" then
          if now - mtimeMs < 60000 then .thinking else .done
        else if t = some "assistant" then
          if now - mtimeMs < 3000 then .thinking else .done
        else .idle

/-- The last complete line the source classifies: the last non-empty
newline-separated line of the final `min(size, 10000)` bytes. Used to
state the claim about `getSessionStatus`. -/
def lastTranscriptLine (content : List Char) : Option (List Char) :=
  ((splitCh '\n' (content.drop (content.length - min content.length 10000))).filter
    (fun l => l ≠ [])).getLast?

/-! ## Effective process resolution (src/tmux.ts)

The process table (one `ps -eo pid=,ppid=,comm=` call) is a list of
`(pid, ppid, comm)` rows in output order; `Map` lookup takes the last
binding of a pid (ps emits each pid once, but the embedding keeps the
real Map semantics).
-/

def wrappers : List String :=
  ["zsh", "bash", "sh", "fish", "tcsh", "csh", "-zsh", "-bash", "-sh", "npm", "npx", "node"]

/-- Embedding of `extractCmdName` (tmux.ts:41-47): first
whitespace-delimited word, then the part after the last slash.
`split(/\s+/)[0]` on a string that does not start with whitespace is its
longest whitespace-free prefix (and the empty string otherwise, matching
the leading-separator behaviour of the JavaScript regexp split). -/
def extractCmdName (psOutput : String) : String :=
  let firstWord := psOutput.data.takeWhile (fun c => !c.isWhitespace)
  ⟨(splitCh '/' firstWord).getLastD []⟩

def childrenOf (table : List (Nat × Nat × String)) (p : Nat) : List Nat :=
  (table.filter (fun e => e.2.1 = p)).map (fun e => e.1)

def tableGet (table : List (Nat × Nat × String)) (p : Nat) : Option (Nat × String) :=
  (table.reverse.find? (fun e => e.1 = p)).map (fun e => e.2)

/-- The wrapper-walking loop of `getEffectiveProcessFromTable`
(tmux.ts:448-480), with the loop counter turned into fuel
(`maxDepth - depth`). At each level: take the children of the current
pid in table order; with no children return the basename of the current
process when it differs from the pane pid and has a non-empty name,
otherwise the original command; with a first child, stop at it if its
basename is not a wrapper in plain or dash-prefixed form, else descend. -/
def getEffectiveProcessAux (table : List (Nat × Nat × String)) (origPid : Nat)
    (origCmd : String) : Nat → Nat → String
  | 0, _ => origCmd
  | fuel + 1, currentPid =>
    match childrenOf table currentPid with
    | [] =>
      if currentPid ≠ origPid then
        match tableGet table currentPid with
        | some (_, comm) =>
          let cmd := extractCmdName comm
          if cmd ≠ "" then cmd else origCmd
        | none => origCmd
      else origCmd
    | childPid :: _ =>
      match tableGet table childPid with
      | none => origCmd
      | some (_, comm) =>
        let cmdName := extractCmdName comm
        if cmdName ∉ wrappers ∧ ("-" ++ cmdName) ∉ wrappers then cmdName
        else getEffectiveProcessAux table origPid origCmd fuel childPid

/-- Embedding of `getEffectiveProcessFromTable` (tmux.ts:433-481):
non-wrapper commands are returned unchanged, wrappers start the walk
with `maxDepth = 5` levels of fuel. -/
def getEffectiveProcessFromTable (pid : Nat) (currentCommand : String)
    (table : List (Nat × Nat × String)) : String :=
  if currentCommand ∉ wrappers then currentCommand
  else getEffectiveProcessAux table pid currentCommand 5 pid

/-- One descent step of the walk as the table shows it: the pid has an
entry whose command basename is a wrapper in plain or dash-prefixed
form (the condition under which the loop continues past it). -/
def isWrapperChild (table : List (Nat × Nat × String)) (c : Nat) : Bool :=
  match tableGet table c with
  | some (_, comm) =>
    wrappers.contains (extractCmdName comm) || wrappers.contains ("-" ++ extractCmdName comm)
  | none => false

/-- The walk descends through `chain` from `cur`: each listed pid is the
first child of the previous one and names a wrapper. Used to state the
behaviour of `getEffectiveProcessFromTable` at every depth. -/
def wrapperChain (table : List (Nat × Nat × String)) : Nat → List Nat → Bool
  | _, [] => true
  | cur, c :: rest =>
    ((childrenOf table cur).head? == some c) && isWrapperChild table c &&
      wrapperChain table c rest

/-! ## Snapshot building (src/tmux.ts:487-563)

`PaneRecord` is one parsed line of the `tmux list-panes` output: the
fourteen formatted fields after `parseInt` on the numeric ones. The raw
colon-splitting of a line (including the rejoin of `session_path`) is
embedded separately as `sessionPathOfLine` below.
-/

structure PaneRecord where
  sessionName : String
  windowIndex : Nat
  windowName : String
  paneIndex : Nat
  paneId : String
  active : Bool
  cols : Nat
  rows : Nat
  left : Nat
  top : Nat
  pid : Nat
  currentCommand : String
  sessionActivity : Nat
  sessionPath : String
deriving DecidableEq, Repr

structure TmuxPane where
  sessionName : String
  windowIndex : Nat
  windowName : String
  paneIndex : Nat
  paneId : String
  target : String
  active : Bool
  cols : Nat
  rows : Nat
  left : Nat
  top : Nat
  pid : Nat
  process : String
deriving DecidableEq, Repr

structure TmuxWindow where
  index : Nat
  name : String
  panes : List TmuxPane
deriving DecidableEq, Repr

structure TmuxSession where
  name : String
  windows : List TmuxWindow
  activity : Nat
  path : Option String
deriving DecidableEq, Repr

/-- The target string `` `${sessionName}:${windowIndex}.${paneIndex}` ``. -/
def mkTarget (sessionName : String) (windowIndex paneIndex : Nat) : String :=
  sessionName ++ ":" ++ toString windowIndex ++ "." ++ toString paneIndex

/-- The `TmuxPane` value built for one parsed line (tmux.ts:529-537). -/
def mkPane (table : List (Nat × Nat × String)) (r : PaneRecord) : TmuxPane :=
  { sessionName := r.sessionName
    windowIndex := r.windowIndex
    windowName := r.windowName
    paneIndex := r.paneIndex
    paneId := r.paneId
    target := mkTarget r.sessionName r.windowIndex r.paneIndex
    active := r.active
    cols := r.cols
    rows := r.rows
    left := r.left
    top := r.top
    pid := r.pid
    process := getEffectiveProcessFromTable r.pid r.currentCommand table }

/-- Find the window with the given index (`session.windows.find`) and push
the pane into it, or push a fresh window at the end (tmux.ts:544-549). -/
def addPaneToWindows (windowIndex : Nat) (windowName : String) (p : TmuxPane) :
    List TmuxWindow → List TmuxWindow
  | [] => [{ index := windowIndex, name := windowName, panes := [p] }]
  | w :: ws =>
    if w.index = windowIndex then { w with panes := w.panes ++ [p] } :: ws
    else w :: addPaneToWindows windowIndex windowName p ws

/-- Process one parsed line against the session map (tmux.ts:539-549); the
`Map` keyed by session name in insertion order is the list. A session
created here takes `activity` and `path` (`sessionPath || undefined`)
from its first line. -/
def addPaneRecord (table : List (Nat × Nat × String)) :
    List TmuxSession → PaneRecord → List TmuxSession
  | [], r =>
    [{ name := r.sessionName
       windows := addPaneToWindows r.windowIndex r.windowName (mkPane table r) []
       activity := r.sessionActivity
       path := if r.sessionPath = "" then none else some r.sessionPath }]
  | s :: ss, r =>
    if s.name = r.sessionName then
      { s with windows := addPaneToWindows r.windowIndex r.windowName (mkPane table r) s.windows } :: ss
    else s :: addPaneRecord table ss r

/-- The per-session sorting pass (tmux.ts:552-557): windows ascending by
index, panes within each window ascending by pane index. -/
def sortSnapshot (ss : List TmuxSession) : List TmuxSession :=
  ss.map fun s =>
    { s with windows :=
        (sortBy (fun a b => a.index ≤ b.index) s.windows).map fun w =>
          { w with panes := sortBy (fun a b => a.paneIndex ≤ b.paneIndex) w.panes } }

/-- Embedding of the pure part of `listSessionsAsync` (tmux.ts:487-563):
fold the parsed pane lines into the session map, then sort windows and
panes. -/
def listSessionsAsync (table : List (Nat × Nat × String)) (records : List PaneRecord) :
    List TmuxSession :=
  sortSnapshot (records.foldl (addPaneRecord table) [])

/-- All panes of a snapshot, in structure order. -/
def snapshotPanes (ss : List TmuxSession) : List TmuxPane :=
  ss.flatMap fun s => s.windows.flatMap fun w => w.panes

/-! ## Raw pane-line parsing (src/tmux.ts:501-540, claim C10)

`parts = line.split(":")`; `session_path` may contain colons, so the
source rejoins `parts.slice(13)` with `":"`. The stored session `path`
is `sessionPath || undefined`.
-/

/-- The reconstructed `sessionPath` of one raw line. -/
def sessionPathOfLine (line : List Char) : List Char :=
  joinCh ':' ((splitCh ':' line).drop 13)

/-- The session `path` field stored from one raw line
(`sessionPath || undefined`). -/
def sessionPathField (line : List Char) : Option (List Char) :=
  if sessionPathOfLine line = [] then none else some (sessionPathOfLine line)

/-! ## Sidebar order (useSessionOrder.applyOrder, claim C5) -/

/-- Lookup in `new Map(sessions.map(s => [s.name, s]))`: the last session
with the name wins, hence the reversed search. -/
def byNameGet (sessions : List TmuxSession) (n : String) : Option TmuxSession :=
  sessions.reverse.find? (fun s => s.name == n)

/-- Embedding of `applyOrder`: saved names first (each resolved through
the name map, misses skipped), then the sessions whose names were not
placed, in server order. The loop that pushes resolved sessions and
accumulates `placed` is the `filterMap` / `filter` pair: `placed` ends
as exactly the saved names that resolved. -/
def applyOrder (order : List String) (sessions : List TmuxSession) : List TmuxSession :=
  let result := order.filterMap (byNameGet sessions)
  let placed := order.filter (fun n => (byNameGet sessions n).isSome)
  result ++ sessions.filter (fun s => !(placed.contains s.name))

/-! ## WebSocket connection handler (server entry, claim C6)

The `wss.on("connection")` handler runs synchronously on open; PTY data
callbacks are only installed after the pane-info frame is sent and the
PTY is created, so a trace of the connection is: the handler effects in
program order, followed by the forwarded PTY output chunks. `paneInfo`
models `getPaneInfo` (None = pane gone), `ptySpawn` models
`createPtySession` (None = the throwing branch, Some pid = the child).
-/

inductive WsEffect
  | closeWith (code : Nat) (reason : String)
  | sendText (frame : String)
  | sendBinary (chunk : List Nat)
  | ptyCreate (pid : Nat)
deriving DecidableEq, Repr

/-- The initial pane-info control frame
`JSON.stringify({type: "pane-info", pane: paneInfo})`. -/
def mkPaneInfoFrame (p : TmuxPane) : String :=
  "\x7b\"type\":\"pane-info\",\"pane\":\"" ++ p.target ++ "\"\x7d"

def connectionTrace (paneParam : Option String) (paneInfo : String → Option TmuxPane)
    (ptySpawn : String → Option Nat) (ptyOutput : List (List Nat)) : List WsEffect :=
  match paneParam with
  | none => [.closeWith 4000 "Missing pane parameter"]
  | some target =>
    match paneInfo target with
    | none => [.closeWith 4001 "Pane not found"]
    | some info =>
      .sendText (mkPaneInfoFrame info) ::
        match ptySpawn target with
        | none => [.closeWith 4002 "Failed to create PTY session"]
        | some pid => .ptyCreate pid :: ptyOutput.map .sendBinary

/-! ## Settings clamping (src/settings.ts:148-172, claim C7)

The claim is about the three numeric settings. `UserNumeric` is the
numeric content of the parsed user file after dot-key expansion and deep
merge: each field either overridden by the user or absent (taking the
default from the schema: opacity 0.15, padding 0, maxDepth 3).
`loadSettings none` is the defaults path (missing or unparseable file).
The clamp step of the source touches `background.opacity` and
`window.padding` only.
-/

structure SettingsNumeric where
  opacity : Rat
  padding : Rat
  maxDepth : Rat
deriving DecidableEq, Repr

structure UserNumeric where
  opacity : Option Rat
  padding : Option Rat
  maxDepth : Option Rat
deriving DecidableEq, Repr

def defaultsNumeric : SettingsNumeric :=
  { opacity := 0.15, padding := 0, maxDepth := 3 }

def loadSettings (user : Option UserNumeric) : SettingsNumeric :=
  let merged :=
    match user with
    | none => defaultsNumeric
    | some u =>
      { opacity := u.opacity.getD defaultsNumeric.opacity
        padding := u.padding.getD defaultsNumeric.padding
        maxDepth := u.maxDepth.getD defaultsNumeric.maxDepth }
  { merged with
    opacity := max 0 (min 1 merged.opacity)
    padding := max 0 merged.padding }

/-! ## Projects resolver and frecency (server entry, claim C8) -/

structure HistoryEntry where
  rank : Rat
  lastAccessed : Int
deriving DecidableEq, Repr

structure ProjectResult where
  name : String
  path : String
  score : Rat
deriving DecidableEq, Repr

/-- Embedding of `frecencyScore`: `HOUR = 3600`, `DAY = 86400`,
`WEEK = 604800` seconds. -/
def frecencyScore (e : HistoryEntry) (now : Int) : Rat :=
  let elapsed := now - e.lastAccessed
  if elapsed < 3600 then e.rank * 4
  else if elapsed < 86400 then e.rank * 2
  else if elapsed < 604800 then e.rank * 0.5
  else e.rank * 0.25

def startsWithChars : List Char → List Char → Bool
  | [], _ => true
  | _ :: _, [] => false
  | n :: ns, h :: hs => n = h && startsWithChars ns hs

def hasInfixChars (needle : List Char) : List Char → Bool
  | [] => needle.isEmpty
  | c :: rest => startsWithChars needle (c :: rest) || hasInfixChars needle rest

/-- JavaScript `hay.includes(needle)`: contiguous substring test. -/
def containsSub (hay needle : String) : Bool :=
  hasInfixChars needle.data hay.data

/-- JavaScript `toLowerCase` on the ASCII range (project paths and
queries; the source relies on the same mapping on both sides of the
comparison). -/
def toLowerCh (c : Char) : Char :=
  if 65 ≤ c.toNat ∧ c.toNat ≤ 90 then Char.ofNat (c.toNat + 32) else c

def toLowerStr (s : String) : String :=
  ⟨s.data.map toLowerCh⟩

/-- `path.basename`: the segment after the last slash, with trailing
slashes ignored (the stored project paths are absolute directory
paths). -/
def basename (p : String) : String :=
  ⟨(((splitCh '/' p.data).filter (fun l => l ≠ [])).getLastD p.data)⟩

/-- The filter of the resolver: with a non-empty query, keep entries
whose lowercased basename or lowercased path contains the lowercased
query. -/
def matchesQuery (query name p : String) : Bool :=
  toLowerStr query == "" || containsSub (toLowerStr name) (toLowerStr query)
    || containsSub (toLowerStr p) (toLowerStr query)

/-- Embedding of the projects resolver `resolve(query)`: history entries
first (scored by frecency), then discovered paths not present in history
(flat score 0.1), both filtered by the query, then sorted descending by
score. `history` is `Object.entries(history)` in key order; `discovered`
the discovered project paths; `now` epoch seconds. -/
def resolve (history : List (String × HistoryEntry)) (discovered : List String)
    (now : Int) (query : String) : List ProjectResult :=
  let histResults := history.filterMap fun pe =>
    if matchesQuery query (basename pe.1) pe.1 then
      some { name := basename pe.1, path := pe.1, score := frecencyScore pe.2 now }
    else none
  let discResults := (discovered.filter fun p => !(history.any fun pe => pe.1 == p)).filterMap
    fun p =>
      if matchesQuery query (basename p) p then
        some { name := basename p, path := p, score := (0.1 : Rat) }
      else none
  sortBy (fun a b => b.score ≤ a.score) (histResults ++ discResults)

/-! ## Helper lemmas: insertion sort -/

theorem insertSorted_perm {α : Type} (le : α → α → Bool) (x : α) (l : List α) :
    (insertSorted le x l).Perm (x :: l) := by
  induction l with
  | nil => simp [insertSorted]
  | cons y ys ih =>
    rw [insertSorted]
    split
    · exact List.Perm.refl _
    · exact (ih.cons y).trans (List.Perm.swap x y ys)

theorem sortBy_perm {α : Type} (le : α → α → Bool) (l : List α) :
    (sortBy le l).Perm l := by
  induction l with
  | nil => simp [sortBy]
  | cons x xs ih => exact (insertSorted_perm le x (sortBy le xs)).trans (ih.cons x)

theorem insertSorted_sorted {α : Type} (le : α → α → Bool)
    (htot : ∀ a b, le a b = false → le b a = true)
    (htrans : ∀ a b c, le a b = true → le b c = true → le a c = true)
    (x : α) (l : List α) (hl : List.Sorted (fun a b => le a b = true) l) :
    List.Sorted (fun a b => le a b = true) (insertSorted le x l) := by
  induction l with
  | nil => simp [insertSorted]
  | cons y ys ih =>
    rw [insertSorted]
    rcases List.sorted_cons.mp hl with ⟨hy, hys⟩
    split
    · next hxy =>
      refine List.sorted_cons.mpr ⟨?_, hl⟩
      intro b hb
      rcases List.mem_cons.mp hb with h | h
      · exact h ▸ hxy
      · exact htrans x y b hxy (hy b h)
    · next hxy =>
      refine List.sorted_cons.mpr ⟨?_, ih hys⟩
      intro b hb
      rcases List.mem_cons.mp ((insertSorted_perm le x ys).mem_iff.mp hb) with h | h
      · exact h ▸ htot x y (Bool.eq_false_iff.mpr hxy)
      · exact hy b h

theorem sortBy_sorted {α : Type} (le : α → α → Bool)
    (htot : ∀ a b, le a b = false → le b a = true)
    (htrans : ∀ a b c, le a b = true → le b c = true → le a c = true)
    (l : List α) : List.Sorted (fun a b => le a b = true) (sortBy le l) := by
  induction l with
  | nil => simp [sortBy]
  | cons x xs ih => exact insertSorted_sorted le htot htrans x (sortBy le xs) ih

/-! ## Helper lemmas: character splitting and joining -/

theorem splitCh_ne_nil (sep : Char) (l : List Char) : splitCh sep l ≠ [] := by
  cases l with
  | nil => simp [splitCh]
  | cons c cs =>
    rw [splitCh]
    rcases h : splitCh sep cs with _ | ⟨x, t⟩
    · simp
    · by_cases hc : c = sep <;> simp [hc]

theorem splitCh_append_sep (sep : Char) (a b : List Char) (ha : sep ∉ a) :
    splitCh sep (a ++ sep :: b) = a :: splitCh sep b := by
  induction a with
  | nil =>
    rw [List.nil_append, splitCh]
    cases h : splitCh sep b with
    | nil => exact absurd h (splitCh_ne_nil sep b)
    | cons x t => simp
  | cons c cs ih =>
    have hc : c ≠ sep := fun h => ha (h ▸ List.mem_cons_self c cs)
    have hcs : sep ∉ cs := fun h => ha (List.mem_cons_of_mem c h)
    rw [List.cons_append, splitCh, ih hcs]
    simp [hc]

theorem joinCh_splitCh (sep : Char) (l : List Char) : joinCh sep (splitCh sep l) = l := by
  induction l with
  | nil => rfl
  | cons c cs ih =>
    rw [splitCh]
    rcases h : splitCh sep cs with _ | ⟨x, t⟩
    · exact absurd h (splitCh_ne_nil sep cs)
    · rw [h] at ih
      by_cases hc : c = sep
      · subst hc
        cases t with
        | nil => simp [joinCh] at ih ⊢; simp [ih]
        | cons u v => simp [joinCh] at ih ⊢; simp [ih]
      · cases t with
        | nil => simp [joinCh, hc] at ih ⊢; simp [ih]
        | cons u v => simp [joinCh, hc] at ih ⊢; simp [List.cons_append, ih]

theorem splitCh_join_fields (sep : Char) (fs : List (List Char)) (p : List Char)
    (hfs : ∀ f ∈ fs, sep ∉ f) :
    splitCh sep (joinCh sep (fs ++ [p])) = fs ++ splitCh sep p := by
  induction fs with
  | nil => simp [joinCh]
  | cons f fs ih =>
    have hf : sep ∉ f := hfs f (List.mem_cons_self f fs)
    have hrest : ∀ g ∈ fs, sep ∉ g := fun g hg => hfs g (List.mem_cons_of_mem f hg)
    have hjoin : joinCh sep ((f :: fs) ++ [p]) = f ++ sep :: joinCh sep (fs ++ [p]) := by
      cases fs <;> simp [joinCh]
    rw [hjoin, splitCh_append_sep sep f _ hf, ih hrest]
    rfl

theorem append_sep_inj {α : Type} (sep : α) (s1 s2 t1 t2 : List α)
    (h : s1 ++ sep :: t1 = s2 ++ sep :: t2) (h1 : sep ∉ t1) (h2 : sep ∉ t2) :
    s1 = s2 ∧ t1 = t2 := by
  induction s1 generalizing s2 with
  | nil =>
    cases s2 with
    | nil => simpa using h
    | cons c cs =>
      rw [List.nil_append, List.cons_append, List.cons_eq_cons] at h
      exact absurd (h.2 ▸ List.mem_append_right cs (List.mem_cons_self sep t2)) h1
  | cons c cs ih =>
    cases s2 with
    | nil =>
      rw [List.nil_append, List.cons_append, List.cons_eq_cons] at h
      exact absurd (h.2.symm ▸ List.mem_append_right cs (List.mem_cons_self sep t1)) h2
    | cons d ds =>
      rw [List.cons_append, List.cons_append, List.cons_eq_cons] at h
      rcases ih ds h.2 with ⟨hs, ht⟩
      exact ⟨by rw [h.1, hs], ht⟩

/-! ## Helper lemmas: decimal digit strings and target injectivity -/

theorem digitChar_isDigit {n : Nat} (h : n < 10) : (Nat.digitChar n).isDigit = true := by
  interval_cases n <;> rfl

theorem toDigitsCore_digits (fuel : Nat) : ∀ (n : Nat) (acc : List Char),
    (∀ c ∈ acc, c.isDigit = true) → ∀ c ∈ Nat.toDigitsCore 10 fuel n acc, c.isDigit = true := by
  induction fuel with
  | zero => intro n acc hacc c hc; simp [Nat.toDigitsCore] at hc; exact hacc c hc
  | succ fuel ih =>
    intro n acc hacc c hc
    rw [Nat.toDigitsCore] at hc
    split at hc
    · rcases List.mem_cons.mp hc with h | h
      · subst h; exact digitChar_isDigit (Nat.mod_lt _ (by norm_num))
      · exact hacc c h
    · refine ih (n / 10) _ ?_ c hc
      intro d hd
      rcases List.mem_cons.mp hd with h | h
      · subst h; exact digitChar_isDigit (Nat.mod_lt _ (by norm_num))
      · exact hacc d h

theorem repr_digits (n : Nat) : ∀ c ∈ (Nat.repr n).data, c.isDigit = true := by
  intro c hc
  have h : (Nat.repr n).data = Nat.toDigits 10 n := rfl
  rw [h] at hc
  exact toDigitsCore_digits _ _ _ (by simp) c hc

def digitsVal (l : List Char) (a : Nat) : Nat :=
  l.foldl (fun acc c => acc * 10 + (c.toNat - 48)) a

def numDigits (n : Nat) : Nat :=
  if n < 10 then 1 else numDigits (n / 10) + 1
decreasing_by exact Nat.div_lt_self (by omega) (by norm_num)

theorem digitChar_val {n : Nat} (h : n < 10) : (Nat.digitChar n).toNat - 48 = n := by
  interval_cases n <;> rfl

theorem digitsVal_toDigitsCore (fuel : Nat) : ∀ (n : Nat) (ds : List Char) (a : Nat),
    n < fuel →
    digitsVal (Nat.toDigitsCore 10 fuel n ds) a = digitsVal ds (a * 10 ^ numDigits n + n) := by
  induction fuel with
  | zero => omega
  | succ fuel ih =>
    intro n ds a hn
    rw [Nat.toDigitsCore]
    split
    · next h =>
      have hlt : n < 10 := by omega
      have hnd : numDigits n = 1 := by rw [numDigits]; simp [hlt]
      rw [hnd]
      show digitsVal (Nat.digitChar (n % 10) :: ds) a = _
      unfold digitsVal
      rw [List.foldl_cons]
      congr 1
      rw [Nat.mod_eq_of_lt hlt, digitChar_val hlt]
      ring
    · next h =>
      have h10 : 10 ≤ n := by
        by_contra hh
        exact h (Nat.div_eq_of_lt (by omega))
      have hstep : n / 10 < fuel := by
        have := Nat.div_lt_self (show 0 < n by omega) (show 1 < 10 by norm_num)
        omega
      rw [ih (n / 10) _ _ hstep]
      have hnd : numDigits n = numDigits (n / 10) + 1 := by
        rw [numDigits]; simp [show ¬ n < 10 by omega]
      rw [hnd]
      show digitsVal (Nat.digitChar (n % 10) :: ds) _ = _
      unfold digitsVal
      rw [List.foldl_cons]
      congr 1
      rw [digitChar_val (Nat.mod_lt _ (by norm_num)), pow_succ]
      have hdm : n / 10 * 10 + n % 10 = n := by
        have := Nat.div_add_mod n 10
        omega
      calc (a * 10 ^ numDigits (n / 10) + n / 10) * 10 + n % 10
          = a * (10 ^ numDigits (n / 10) * 10) + (n / 10 * 10 + n % 10) := by ring
        _ = a * (10 ^ numDigits (n / 10) * 10) + n := by rw [hdm]

theorem repr_injective : Function.Injective Nat.repr := by
  intro m n h
  have hm := digitsVal_toDigitsCore (m + 1) m [] 0 (by omega)
  have hn := digitsVal_toDigitsCore (n + 1) n [] 0 (by omega)
  have hd : (Nat.repr m).data = (Nat.repr n).data := by rw [h]
  have h2 : Nat.toDigits 10 m = Nat.toDigits 10 n := hd
  have h3 : digitsVal (Nat.toDigits 10 m) 0 = digitsVal (Nat.toDigits 10 n) 0 := by rw [h2]
  unfold Nat.toDigits at h3
  rw [hm, hn] at h3
  simpa [digitsVal] using h3

theorem repr_no_colon (n : Nat) : ':' ∉ (Nat.repr n).data := by
  intro h
  have := repr_digits n ':' h
  simp [Char.isDigit] at this

theorem repr_no_dot (n : Nat) : '.' ∉ (Nat.repr n).data := by
  intro h
  have := repr_digits n '.' h
  simp [Char.isDigit] at this

theorem toString_nat_data (n : Nat) : (toString n).data = (Nat.repr n).data := rfl

theorem string_data_inj {s t : String} (h : s.data = t.data) : s = t := by
  cases s; cases t; exact congrArg String.mk h

theorem mkTarget_data (s : String) (w p : Nat) :
    (mkTarget s w p).data = s.data ++ ':' :: ((Nat.repr w).data ++ '.' :: (Nat.repr p).data) := by
  show (s ++ ":" ++ toString w ++ "." ++ toString p).data = _
  rw [String.data_append, String.data_append, String.data_append, String.data_append]
  simp [toString_nat_data]

theorem mkTarget_inj (s1 s2 : String) (w1 p1 w2 p2 : Nat)
    (h : mkTarget s1 w1 p1 = mkTarget s2 w2 p2) : s1 = s2 ∧ w1 = w2 ∧ p1 = p2 := by
  have hd : (mkTarget s1 w1 p1).data = (mkTarget s2 w2 p2).data := by rw [h]
  rw [mkTarget_data, mkTarget_data] at hd
  have hnc1 : ':' ∉ (Nat.repr w1).data ++ '.' :: (Nat.repr p1).data := by
    intro hmem
    rcases List.mem_append.mp hmem with hh | hh
    · exact repr_no_colon w1 hh
    · rcases List.mem_cons.mp hh with hh | hh
      · simp at hh
      · exact repr_no_colon p1 hh
  have hnc2 : ':' ∉ (Nat.repr w2).data ++ '.' :: (Nat.repr p2).data := by
    intro hmem
    rcases List.mem_append.mp hmem with hh | hh
    · exact repr_no_colon w2 hh
    · rcases List.mem_cons.mp hh with hh | hh
      · simp at hh
      · exact repr_no_colon p2 hh
  rcases append_sep_inj ':' _ _ _ _ hd hnc1 hnc2 with ⟨hs, ht⟩
  rcases append_sep_inj '.' _ _ _ _ ht (repr_no_dot p1) (repr_no_dot p2) with ⟨hw, hp⟩
  exact ⟨string_data_inj hs, repr_injective (string_data_inj hw),
    repr_injective (string_data_inj hp)⟩

/-! ## Helper lemmas for the process-tree walk -/

theorem getEffectiveProcessAux_succ (table : List (Nat × Nat × String)) (origPid : Nat)
    (origCmd : String) (fuel currentPid : Nat) :
    getEffectiveProcessAux table origPid origCmd (fuel + 1) currentPid =
      (match childrenOf table currentPid with
      | [] =>
        if currentPid ≠ origPid then
          match tableGet table currentPid with
          | some (_, comm) =>
            let cmd := extractCmdName comm
            if cmd ≠ "" then cmd else origCmd
          | none => origCmd
        else origCmd
      | childPid :: _ =>
        match tableGet table childPid with
        | none => origCmd
        | some (_, comm) =>
          let cmdName := extractCmdName comm
          if cmdName ∉ wrappers ∧ ("-" ++ cmdName) ∉ wrappers then cmdName
          else getEffectiveProcessAux table origPid origCmd fuel childPid) := rfl

theorem isWrapperChild_spec {table : List (Nat × Nat × String)} {c : Nat}
    (h : isWrapperChild table c = true) :
    ∃ pp comm, tableGet table c = some (pp, comm) ∧
      (extractCmdName comm ∈ wrappers ∨ ("-" ++ extractCmdName comm) ∈ wrappers) := by
  rw [isWrapperChild] at h
  cases hg : tableGet table c with
  | none => rw [hg] at h; cases h
  | some pc =>
    rcases pc with ⟨pp, comm⟩
    rw [hg] at h
    rw [Bool.or_eq_true] at h
    refine ⟨pp, comm, rfl, ?_⟩
    rcases h with h | h
    · exact Or.inl (List.elem_iff.mp h)
    · exact Or.inr (List.elem_iff.mp h)

theorem wrapperChain_cons {table : List (Nat × Nat × String)} {cur c : Nat} {rest : List Nat}
    (h : wrapperChain table cur (c :: rest) = true) :
    (childrenOf table cur).head? = some c ∧ isWrapperChild table c = true ∧
      wrapperChain table c rest = true := by
  rw [wrapperChain, Bool.and_eq_true, Bool.and_eq_true] at h
  exact ⟨beq_iff_eq.mp h.1.1, h.1.2, h.2⟩

theorem wrapperChain_last {table : List (Nat × Nat × String)} {c : Nat} :
    ∀ (chain : List Nat) (cur : Nat), wrapperChain table cur (chain ++ [c]) = true →
      isWrapperChild table c = true := by
  intro chain
  induction chain with
  | nil => intro cur h; exact (wrapperChain_cons h).2.1
  | cons d rest ih =>
    intro cur h
    exact ih d (wrapperChain_cons h).2.2

/-- Wrapper names are non-empty, so a basename accepted by the wrapper
test (plain or dash-prefixed) is never the empty string. -/
theorem wrapper_basename_ne_empty {s : String}
    (h : s ∈ wrappers ∨ ("-" ++ s) ∈ wrappers) : s ≠ "" := by
  intro he
  subst he
  exact absurd h (by decide)

/-- Descending the walk along a wrapper chain: with enough fuel, the walk
from `cur` reaches the last pid of the chain, spending one unit of fuel
per level. -/
theorem getEffectiveProcessAux_chain (table : List (Nat × Nat × String)) (origPid : Nat)
    (origCmd : String) :
    ∀ (chain : List Nat) (cur fuel : Nat), wrapperChain table cur chain = true →
      chain.length ≤ fuel →
      getEffectiveProcessAux table origPid origCmd fuel cur =
        getEffectiveProcessAux table origPid origCmd (fuel - chain.length)
          (chain.getLastD cur) := by
  intro chain
  induction chain with
  | nil => intro cur fuel _ _; rfl
  | cons c rest ih =>
    intro cur fuel hchain hlen
    rcases wrapperChain_cons hchain with ⟨hhead, hwc, hrest⟩
    rcases isWrapperChild_spec hwc with ⟨pp, comm, hget, hwrap⟩
    obtain ⟨f, rfl⟩ : ∃ f, fuel = f + 1 := ⟨fuel - 1, by simp at hlen; omega⟩
    obtain ⟨tl, hch⟩ : ∃ tl, childrenOf table cur = c :: tl := by
      cases hc : childrenOf table cur with
      | nil => rw [hc] at hhead; exact absurd hhead (by simp)
      | cons a b =>
        rw [hc] at hhead
        simp at hhead
        exact ⟨b, by rw [hhead]⟩
    rw [getEffectiveProcessAux_succ, hch]
    simp only [hget]
    rw [if_neg (by tauto)]
    rw [ih c f hrest (by simp at hlen; omega)]
    have harg1 : f + 1 - (c :: rest).length = f - rest.length := by simp
    have harg2 : (c :: rest).getLastD cur = rest.getLastD c := List.getLastD_cons cur c rest
    rw [harg1, harg2]

/-! ## Helper lemmas for snapshot building -/

/-- All panes of a window list, in structure order. -/
def windowsPanes (ws : List TmuxWindow) : List TmuxPane :=
  ws.flatMap fun w => w.panes

theorem windowsPanes_addPaneToWindows (wi : Nat) (wn : String) (p : TmuxPane)
    (ws : List TmuxWindow) :
    (windowsPanes (addPaneToWindows wi wn p ws)).Perm (p :: windowsPanes ws) := by
  induction ws with
  | nil => simp [windowsPanes, addPaneToWindows]
  | cons w ws ih =>
    rw [addPaneToWindows]
    split
    · simp only [windowsPanes, List.flatMap_cons]
      exact (List.perm_append_singleton p w.panes).append_right (ws.flatMap fun w => w.panes)
    · simp only [windowsPanes, List.flatMap_cons]
      refine ((ih.append_left w.panes).trans ?_)
      exact List.perm_middle

theorem snapshotPanes_cons (s : TmuxSession) (ss : List TmuxSession) :
    snapshotPanes (s :: ss) = windowsPanes s.windows ++ snapshotPanes ss := rfl

theorem snapshotPanes_addPaneRecord (table : List (Nat × Nat × String))
    (ss : List TmuxSession) (r : PaneRecord) :
    (snapshotPanes (addPaneRecord table ss r)).Perm (mkPane table r :: snapshotPanes ss) := by
  induction ss with
  | nil =>
    simp [snapshotPanes, addPaneRecord, addPaneToWindows, windowsPanes]
  | cons s ss ih =>
    rw [addPaneRecord]
    split
    · rw [snapshotPanes_cons, snapshotPanes_cons]
      refine ((windowsPanes_addPaneToWindows r.windowIndex r.windowName (mkPane table r)
        s.windows).append_right (snapshotPanes ss)).trans ?_
      rw [List.cons_append]
    · rw [snapshotPanes_cons, snapshotPanes_cons]
      refine ((ih.append_left (windowsPanes s.windows)).trans ?_)
      exact List.perm_middle

theorem snapshotPanes_foldl (table : List (Nat × Nat × String)) (records : List PaneRecord)
    (ss : List TmuxSession) :
    (snapshotPanes (records.foldl (addPaneRecord table) ss)).Perm
      (records.map (mkPane table) ++ snapshotPanes ss) := by
  induction records generalizing ss with
  | nil => simp
  | cons r rs ih =>
    rw [List.foldl_cons, List.map_cons]
    refine (ih (addPaneRecord table ss r)).trans ?_
    refine ((snapshotPanes_addPaneRecord table ss r).append_left (rs.map (mkPane table))).trans ?_
    exact List.perm_middle

theorem flatMap_perm_of_forall {α β : Type} (l : List α) {f g : α → List β}
    (h : ∀ a ∈ l, (f a).Perm (g a)) : (l.flatMap f).Perm (l.flatMap g) := by
  induction l with
  | nil => simp
  | cons a l ih =>
    rw [List.flatMap_cons, List.flatMap_cons]
    exact ((h a (List.mem_cons_self a l)).append_right _).trans
      ((ih fun b hb => h b (List.mem_cons_of_mem a hb)).append_left (g a))

theorem snapshotPanes_sortSnapshot (ss : List TmuxSession) :
    (snapshotPanes (sortSnapshot ss)).Perm (snapshotPanes ss) := by
  rw [sortSnapshot, snapshotPanes]
  have hmap : ((ss.map fun s =>
      { s with windows :=
          (sortBy (fun a b : TmuxWindow => a.index ≤ b.index) s.windows).map fun w : TmuxWindow =>
            { w with panes :=
                sortBy (fun a b : TmuxPane => a.paneIndex ≤ b.paneIndex) w.panes } }).flatMap
        fun s => s.windows.flatMap fun w => w.panes) =
      ss.flatMap fun s =>
        ((sortBy (fun a b : TmuxWindow => a.index ≤ b.index) s.windows).map fun w : TmuxWindow =>
          { w with panes :=
              sortBy (fun a b : TmuxPane => a.paneIndex ≤ b.paneIndex) w.panes }).flatMap
            fun w => w.panes := by
    rw [List.flatMap_map]
  rw [hmap]
  refine flatMap_perm_of_forall ss ?_
  intro s _
  have h1 : ((sortBy (fun a b : TmuxWindow => a.index ≤ b.index) s.windows).map fun w : TmuxWindow =>
      { w with panes := sortBy (fun a b : TmuxPane => a.paneIndex ≤ b.paneIndex) w.panes }).flatMap
        (fun w => w.panes) =
      (sortBy (fun a b : TmuxWindow => a.index ≤ b.index) s.windows).flatMap
        fun w => sortBy (fun a b : TmuxPane => a.paneIndex ≤ b.paneIndex) w.panes := by
    rw [List.flatMap_map]
  rw [h1]
  refine (flatMap_perm_of_forall _ fun w _ => sortBy_perm _ w.panes).trans ?_
  exact List.Perm.flatMap_right (fun w => w.panes) (sortBy_perm _ s.windows)

theorem snapshotPanes_listSessionsAsync (table : List (Nat × Nat × String))
    (records : List PaneRecord) :
    (snapshotPanes (listSessionsAsync table records)).Perm (records.map (mkPane table)) := by
  rw [listSessionsAsync]
  refine (snapshotPanes_sortSnapshot _).trans ?_
  simpa [snapshotPanes] using snapshotPanes_foldl table records []

/-! ## Claim theorems -/

/-- C1: the notification latch flips `notified` from false to true exactly
when the derived status is `done` and either the previous status was
`thinking` (the thinking-to-done transition) or the entry was neither
notified nor viewed; and `markSessionViewed` stores `notified = false`
with `viewedAt` set to the current time. -/
theorem notification_latch_only_on_done :
    (∀ (status : SessionStatus) (prev : Option SessionStatus) (state : NotifState),
      (checkAndNotifyCore status prev state).notified = true ↔
        (state.notified = true ∨
          (status = .done ∧ (prev = some .thinking ∨
            (state.notified = false ∧ state.viewedAt = none))))) ∧
    (∀ (id : String) (now : Int) (st : WatcherState),
      (markSessionViewed id now st).notificationState id =
        some { notified := false, viewedAt := some now }) := by
  constructor
  · intro status prev state
    rcases state with ⟨n, v⟩
    simp only [checkAndNotifyCore]
    split_ifs <;> simp_all
    tauto
  · intro id now st
    simp [markSessionViewed]

/-- C9: `markSessionViewed` is total; it stores an entry for the given id
(creating one when absent) with `notified = false` and a non-null
`viewedAt`, leaves every other id of the notification map unchanged, and
does not touch the previous-status map. -/
theorem markSessionViewed_frame :
    ∀ (id : String) (now : Int) (st : WatcherState),
      ((markSessionViewed id now st).notificationState id =
        some { notified := false, viewedAt := some now }) ∧
      (∀ other, other ≠ id →
        (markSessionViewed id now st).notificationState other = st.notificationState other) ∧
      (markSessionViewed id now st).previousStatus = st.previousStatus := by
  intro id now st
  refine ⟨by simp [markSessionViewed], ?_, rfl⟩
  intro other hne
  simp [markSessionViewed, hne]

/-- The classification table of `getSessionStatus` as a definitional
unfolding: fold the tail-reading and line-filtering into
`lastTranscriptLine`. -/
theorem getSessionStatus_eq (parse : List Char → Option (Option String))
    (content : List Char) (mtimeMs now : Int) :
    getSessionStatus parse true content mtimeMs now =
      (match lastTranscriptLine content with
      | none => .idle
      | some lastLine =>
        match parse lastLine with
        | none => .idle
        | some t =>
          if t = some "summary" then .done
          else if t = some "user" then
            if now - mtimeMs < 60000 then .thinking else .done
          else if t = some "assistant" then
            if now - mtimeMs < 3000 then .thinking else .done
          else .idle) := rfl

/-- C2: `getSessionStatus` reads the last 10000 bytes of the transcript
and classifies by the last complete JSON line: a missing file, an empty
tail or a parse failure give `idle`; type `summary` gives `done`; type
`user` gives `thinking` within 60 s of the mtime, else `done`; type
`assistant` gives `thinking` within 3 s, else `done`; any other type
gives `idle`. -/
theorem getSessionStatus_classification :
    ∀ (parse : List Char → Option (Option String)) (content : List Char) (mtimeMs now : Int),
      (getSessionStatus parse false content mtimeMs now = .idle) ∧
      (lastTranscriptLine content = none →
        getSessionStatus parse true content mtimeMs now = .idle) ∧
      (∀ l, lastTranscriptLine content = some l →
        ((parse l = none → getSessionStatus parse true content mtimeMs now = .idle) ∧
         (parse l = some (some "summary") →
           getSessionStatus parse true content mtimeMs now = .done) ∧
         (parse l = some (some "user") →
           getSessionStatus parse true content mtimeMs now =
             (if now - mtimeMs < 60000 then .thinking else .done)) ∧
         (parse l = some (some "assistant") →
           getSessionStatus parse true content mtimeMs now =
             (if now - mtimeMs < 3000 then .thinking else .done)) ∧
         (∀ t, parse l = some t → t ≠ some "summary" → t ≠ some "user" →
           t ≠ some "assistant" →
           getSessionStatus parse true content mtimeMs now = .idle))) := by
  intro parse content mtimeMs now
  refine ⟨rfl, ?_, ?_⟩
  · intro h
    rw [getSessionStatus_eq, h]
  · intro l hl
    refine ⟨?_, ?_, ?_, ?_, ?_⟩
    · intro hp; simp [getSessionStatus_eq, hl, hp]
    · intro hp; simp [getSessionStatus_eq, hl, hp]
    · intro hp; simp [getSessionStatus_eq, hl, hp]
    · intro hp; simp [getSessionStatus_eq, hl, hp]
    · intro t hp h1 h2 h3; simp [getSessionStatus_eq, hl, hp, h1, h2, h3]

/-- C7 counterexample: a user file overriding `projects.maxDepth` with 0
loads with `maxDepth = 0`, below the declared minimum of 1 — the clamp
step never touches `maxDepth`. -/
theorem loadSettings_maxDepth_unclamped :
    (loadSettings (some ⟨none, none, some 0⟩)).maxDepth = 0 ∧
    ¬(1 ≤ (loadSettings (some ⟨none, none, some 0⟩)).maxDepth) := by
  constructor
  · rfl
  · decide

/-- C7 amended: after every load, `background.opacity` is clamped into
[0, 1] and `window.padding` into [0, ∞); `projects.maxDepth` is passed
through from the user override unclamped (default 3 when absent), so it
can lie below its declared minimum. -/
theorem loadSettings_clamps :
    ∀ user, (0 ≤ (loadSettings user).opacity ∧ (loadSettings user).opacity ≤ 1) ∧
      (0 ≤ (loadSettings user).padding) ∧
      ((loadSettings user).maxDepth =
        match user with
        | none => 3
        | some u => u.maxDepth.getD 3) := by
  intro user
  rcases user with _ | u
  all_goals refine ⟨⟨?_, ?_⟩, ?_, rfl⟩
  · exact le_max_left 0 _
  · exact max_le (by norm_num) (min_le_left 1 _)
  · exact le_max_left 0 _
  · exact le_max_left 0 _
  · exact max_le (by norm_num) (min_le_left 1 _)
  · exact le_max_left 0 _

/-- C3 counterexample: pane pid 1 runs the wrapper "zsh" whose only
descendant is the childless wrapper "bash"; the branch contains only
wrappers, yet the resolver returns "bash", the basename of the leaf
wrapper, not the original command "zsh". -/
theorem getEffectiveProcess_wrapper_leaf_not_original :
    "zsh" ∈ wrappers ∧ "bash" ∈ wrappers ∧
    getEffectiveProcessFromTable 1 "zsh" [(2, 1, "bash")] = "bash" ∧
    getEffectiveProcessFromTable 1 "zsh" [(2, 1, "bash")] ≠ "zsh" := by decide

/-- C3 amended: a non-wrapper command resolves to itself, and a wrapper
whose pane pid has no children resolves to itself. A wrapper command
starts a walk that follows the first child at each level through
wrapper-named children: after descending any wrapper chain of fewer
than 5 levels, a next first child whose basename is a non-wrapper in
both plain and dash-prefixed form is returned; a wrapper chain of fewer
than 5 levels ending at a childless wrapper other than the pane pid
returns that leaf wrapper's basename — not the original command; every
child listed by the table has a table entry, so the defensive branch
returning the original command on a missing entry never fires; and a
wrapper chain of 5 levels exhausts the walk, returning the original
command. -/
theorem getEffectiveProcess_spec :
    ∀ (pid : Nat) (cmd : String) (table : List (Nat × Nat × String)),
      (cmd ∉ wrappers → getEffectiveProcessFromTable pid cmd table = cmd) ∧
      (cmd ∈ wrappers → childrenOf table pid = [] →
        getEffectiveProcessFromTable pid cmd table = cmd) ∧
      (∀ chain c pp comm, cmd ∈ wrappers → wrapperChain table pid chain = true →
        chain.length < 5 → (childrenOf table (chain.getLastD pid)).head? = some c →
        tableGet table c = some (pp, comm) → extractCmdName comm ∉ wrappers →
        ("-" ++ extractCmdName comm) ∉ wrappers →
        getEffectiveProcessFromTable pid cmd table = extractCmdName comm) ∧
      (∀ chain c pp comm, cmd ∈ wrappers →
        wrapperChain table pid (chain ++ [c]) = true → (chain ++ [c]).length < 5 →
        childrenOf table c = [] → c ≠ pid → tableGet table c = some (pp, comm) →
        getEffectiveProcessFromTable pid cmd table = extractCmdName comm) ∧
      (∀ p c, c ∈ childrenOf table p → tableGet table c ≠ none) ∧
      (∀ chain, cmd ∈ wrappers → wrapperChain table pid chain = true →
        chain.length = 5 → getEffectiveProcessFromTable pid cmd table = cmd) := by
  intro pid cmd table
  refine ⟨?_, ?_, ?_, ?_, ?_, ?_⟩
  · intro h
    simp [getEffectiveProcessFromTable, h]
  · intro h hch
    rw [getEffectiveProcessFromTable]
    rw [if_neg (by simpa using h)]
    show getEffectiveProcessAux table pid cmd (4 + 1) pid = cmd
    rw [getEffectiveProcessAux_succ, hch]
    simp
  · intro chain c pp comm h hchain hlen hhead hget h1 h2
    rw [getEffectiveProcessFromTable]
    rw [if_neg (by simpa using h)]
    rw [getEffectiveProcessAux_chain table pid cmd chain pid 5 hchain (by omega)]
    obtain ⟨f, hf⟩ : ∃ f, 5 - chain.length = f + 1 := ⟨4 - chain.length, by omega⟩
    obtain ⟨tl, hch⟩ : ∃ tl, childrenOf table (chain.getLastD pid) = c :: tl := by
      cases hc : childrenOf table (chain.getLastD pid) with
      | nil => rw [hc] at hhead; exact absurd hhead (by simp)
      | cons a b =>
        rw [hc] at hhead
        simp at hhead
        exact ⟨b, by rw [hhead]⟩
    rw [hf, getEffectiveProcessAux_succ, hch]
    simp only [hget]
    rw [if_pos ⟨h1, h2⟩]
  · intro chain c pp comm h hchain hlen hleaf hne hget
    rw [getEffectiveProcessFromTable]
    rw [if_neg (by simpa using h)]
    rw [getEffectiveProcessAux_chain table pid cmd (chain ++ [c]) pid 5 hchain
      (Nat.le_of_lt hlen)]
    rw [List.getLastD_concat]
    obtain ⟨f, hf⟩ : ∃ f, 5 - (chain ++ [c]).length = f + 1 :=
      ⟨4 - (chain ++ [c]).length, by omega⟩
    rw [hf, getEffectiveProcessAux_succ, hleaf]
    rw [if_pos hne, hget]
    have hwc := wrapperChain_last chain pid hchain
    rcases isWrapperChild_spec hwc with ⟨pq, comm2, hget2, hwrap2⟩
    have hcomm : comm2 = comm := by
      have := hget2.symm.trans hget
      simp at this
      exact this.2
    have hnempty : extractCmdName comm ≠ "" :=
      wrapper_basename_ne_empty (hcomm ▸ hwrap2)
    simp [hnempty]
  · intro p c hc hnone
    rcases List.mem_map.mp hc with ⟨e, he, he1⟩
    have hmem : e ∈ table := (List.mem_filter.mp he).1
    have hfind : table.reverse.find? (fun x => x.1 = c) = none := by
      cases hf : table.reverse.find? (fun x => x.1 = c) with
      | none => rfl
      | some y =>
        rw [tableGet, hf] at hnone
        cases hnone
    rw [List.find?_eq_none] at hfind
    exact absurd (by simp [he1]) (hfind e (List.mem_reverse.mpr hmem))
  · intro chain h hchain hlen
    rw [getEffectiveProcessFromTable]
    rw [if_neg (by simpa using h)]
    rw [getEffectiveProcessAux_chain table pid cmd chain pid 5 hchain (by omega), hlen]
    rfl

/-- C3 witness: the multi-level scenario of the specification — the pane
runs "zsh", its first child is the wrapper "node", whose first child is
"vim"; the walk descends the wrapper chain and resolves "vim". -/
theorem getEffectiveProcess_spec_witness :
    getEffectiveProcessFromTable 1 "zsh" [(2, 1, "node"), (3, 2, "vim")] = "vim" :=
  (getEffectiveProcess_spec 1 "zsh" [(2, 1, "node"), (3, 2, "vim")]).2.2.1 [2] 3 2 "vim"
    (by decide) (by decide) (by decide) (by decide) (by decide) (by decide) (by decide)

/-- C4: every snapshot built by `listSessionsAsync` is well-formed: each
pane's target is the string built from its own session name, window
index and pane index; when the listed pane coordinates are pairwise
distinct (as the multiplexer guarantees) every target occurs at most
once across the snapshot; and in every session the windows are sorted
ascending by window index and the panes of every window ascending by
pane index. -/
theorem listSessionsAsync_wellformed :
    ∀ (table : List (Nat × Nat × String)) (records : List PaneRecord),
      (∀ p ∈ snapshotPanes (listSessionsAsync table records),
        p.target = mkTarget p.sessionName p.windowIndex p.paneIndex) ∧
      ((records.map fun r => (r.sessionName, r.windowIndex, r.paneIndex)).Nodup →
        ((snapshotPanes (listSessionsAsync table records)).map TmuxPane.target).Nodup) ∧
      (∀ s ∈ listSessionsAsync table records,
        List.Sorted (fun a b : TmuxWindow => a.index ≤ b.index) s.windows ∧
        ∀ w ∈ s.windows,
          List.Sorted (fun a b : TmuxPane => a.paneIndex ≤ b.paneIndex) w.panes) := by
  intro table records
  refine ⟨?_, ?_, ?_⟩
  · intro p hp
    have hmem := (snapshotPanes_listSessionsAsync table records).mem_iff.mp hp
    rcases List.mem_map.mp hmem with ⟨r, _, hr⟩
    rw [← hr]
    rfl
  · intro hkeys
    have hperm := (snapshotPanes_listSessionsAsync table records).map TmuxPane.target
    refine hperm.nodup_iff.mpr ?_
    rw [List.map_map]
    have hcomp : (TmuxPane.target ∘ mkPane table) =
        (fun k : String × Nat × Nat => mkTarget k.1 k.2.1 k.2.2) ∘
          (fun r : PaneRecord => (r.sessionName, r.windowIndex, r.paneIndex)) := rfl
    rw [hcomp, ← List.map_map]
    refine List.Nodup.map ?_ hkeys
    intro k1 k2 h
    rcases k1 with ⟨s1, w1, p1⟩
    rcases k2 with ⟨s2, w2, p2⟩
    rcases mkTarget_inj s1 s2 w1 p1 w2 p2 h with ⟨h1, h2, h3⟩
    simp [h1, h2, h3]
  · intro s hs
    rw [listSessionsAsync, sortSnapshot] at hs
    rcases List.mem_map.mp hs with ⟨s0, _, hmap⟩
    have hwtot : ∀ a b : TmuxWindow, decide (a.index ≤ b.index) = false →
        decide (b.index ≤ a.index) = true := by
      intro a b h
      rw [decide_eq_false_iff_not] at h
      rw [decide_eq_true_eq]
      exact le_of_not_le h
    have hwtrans : ∀ a b c : TmuxWindow, decide (a.index ≤ b.index) = true →
        decide (b.index ≤ c.index) = true → decide (a.index ≤ c.index) = true := by
      intro a b c h1 h2
      rw [decide_eq_true_eq] at h1 h2 ⊢
      exact le_trans h1 h2
    have hptot : ∀ a b : TmuxPane, decide (a.paneIndex ≤ b.paneIndex) = false →
        decide (b.paneIndex ≤ a.paneIndex) = true := by
      intro a b h
      rw [decide_eq_false_iff_not] at h
      rw [decide_eq_true_eq]
      exact le_of_not_le h
    have hptrans : ∀ a b c : TmuxPane, decide (a.paneIndex ≤ b.paneIndex) = true →
        decide (b.paneIndex ≤ c.paneIndex) = true →
        decide (a.paneIndex ≤ c.paneIndex) = true := by
      intro a b c h1 h2
      rw [decide_eq_true_eq] at h1 h2 ⊢
      exact le_trans h1 h2
    constructor
    · rw [← hmap]
      have hsorted := sortBy_sorted (fun a b : TmuxWindow => decide (a.index ≤ b.index))
        hwtot hwtrans s0.windows
      exact List.Pairwise.map _ (fun a b h => decide_eq_true_eq.mp h) hsorted
    · intro w hw
      rw [← hmap] at hw
      rcases List.mem_map.mp hw with ⟨w0, _, hw0⟩
      rw [← hw0]
      have hsorted := sortBy_sorted (fun a b : TmuxPane => decide (a.paneIndex ≤ b.paneIndex))
        hptot hptrans w0.panes
      exact hsorted.imp fun h => decide_eq_true_eq.mp h

/-- C6: on WebSocket open with a pane target, a missing pane closes the
socket with code 4001 and reason "Pane not found" and creates no PTY
child and sends no frame; with a pane present, the trace starts with the
single textual pane-info frame and contains no further text frame, so
the frame precedes every PTY data byte; and a PTY spawn failure closes
with code 4002 right after the pane-info frame. -/
theorem ws_connection_contract :
    ∀ (paneInfo : String → Option TmuxPane) (ptySpawn : String → Option Nat)
      (ptyOutput : List (List Nat)) (target : String),
      (paneInfo target = none →
        connectionTrace (some target) paneInfo ptySpawn ptyOutput =
          [.closeWith 4001 "Pane not found"] ∧
        (∀ p, WsEffect.ptyCreate p ∉ connectionTrace (some target) paneInfo ptySpawn ptyOutput) ∧
        (∀ ch, WsEffect.sendBinary ch ∉
          connectionTrace (some target) paneInfo ptySpawn ptyOutput)) ∧
      (∀ info, paneInfo target = some info →
        ∃ rest, connectionTrace (some target) paneInfo ptySpawn ptyOutput =
          .sendText (mkPaneInfoFrame info) :: rest ∧
          ∀ e ∈ rest, ∀ f, e ≠ WsEffect.sendText f) ∧
      (∀ info, paneInfo target = some info → ptySpawn target = none →
        connectionTrace (some target) paneInfo ptySpawn ptyOutput =
          [.sendText (mkPaneInfoFrame info),
           .closeWith 4002 "Failed to create PTY session"]) := by
  intro paneInfo ptySpawn ptyOutput target
  refine ⟨?_, ?_, ?_⟩
  · intro h
    refine ⟨by simp [connectionTrace, h], ?_, ?_⟩ <;> intro a <;> simp [connectionTrace, h]
  · intro info h
    refine ⟨(match ptySpawn target with
      | none => [WsEffect.closeWith 4002 "Failed to create PTY session"]
      | some pid => WsEffect.ptyCreate pid :: ptyOutput.map WsEffect.sendBinary),
      by simp [connectionTrace, h], ?_⟩
    intro e he f
    rcases hspawn : ptySpawn target with _ | pid
    · rw [hspawn] at he
      simp at he
      rw [he]
      intro hcontra
      cases hcontra
    · rw [hspawn] at he
      rcases List.mem_cons.mp he with h1 | h1
      · rw [h1]; intro hcontra; cases hcontra
      · rcases List.mem_map.mp h1 with ⟨ch, _, hch⟩
        rw [← hch]; intro hcontra; cases hcontra
  · intro info h hspawn
    simp [connectionTrace, h, hspawn]

/-- C10: for a pane line made of 13 colon-free fields followed by a
session path (so at least 14 colon-delimited fields), rejoining the
split parts from index 13 with ":" reconstructs the path exactly, colons
included; an empty path field stores no session path. -/
theorem sessionPath_roundtrip :
    ∀ (fs : List (List Char)) (p : List Char),
      fs.length = 13 → (∀ f ∈ fs, ':' ∉ f) →
      ((splitCh ':' (joinCh ':' (fs ++ [p]))).length ≥ 14 ∧
       sessionPathOfLine (joinCh ':' (fs ++ [p])) = p ∧
       sessionPathField (joinCh ':' (fs ++ [p])) = (if p = [] then none else some p)) := by
  intro fs p hlen hfs
  have hsplit := splitCh_join_fields ':' fs p hfs
  have hpath : sessionPathOfLine (joinCh ':' (fs ++ [p])) = p := by
    rw [sessionPathOfLine, hsplit, ← hlen, List.drop_left, joinCh_splitCh]
  refine ⟨?_, hpath, ?_⟩
  · rw [hsplit, List.length_append, hlen]
    have := splitCh_ne_nil ':' p
    have hp : 0 < (splitCh ':' p).length := List.length_pos.mpr this
    omega
  · rw [sessionPathField, hpath]

/-- C10 witness: 13 empty fields and the colon-containing path "a:b"
round-trip through split and rejoin. -/
theorem sessionPath_roundtrip_witness :
    ((splitCh ':' (joinCh ':' (List.replicate 13 ([] : List Char) ++ ["a:b".data]))).length ≥ 14 ∧
     sessionPathOfLine (joinCh ':' (List.replicate 13 ([] : List Char) ++ ["a:b".data])) =
       "a:b".data ∧
     sessionPathField (joinCh ':' (List.replicate 13 ([] : List Char) ++ ["a:b".data])) =
       (if "a:b".data = [] then none else some "a:b".data)) :=
  sessionPath_roundtrip (List.replicate 13 []) "a:b".data (by decide) (by decide)

/-- The resolver pipeline as one equation (the lets of `resolve`
unfolded). -/
theorem resolve_eq (history : List (String × HistoryEntry)) (discovered : List String)
    (now : Int) (query : String) :
    resolve history discovered now query =
      sortBy (fun a b => decide (b.score ≤ a.score))
        ((history.filterMap fun pe =>
          if matchesQuery query (basename pe.1) pe.1 then
            some { name := basename pe.1, path := pe.1, score := frecencyScore pe.2 now }
          else none) ++
         ((discovered.filter fun p => !(history.any fun pe => pe.1 == p)).filterMap fun p =>
           if matchesQuery query (basename p) p then
             some { name := basename p, path := p, score := (0.1 : Rat) }
           else none)) := rfl

/-- C8: the projects resolver returns exactly the query-matching history
entries, scored rank times 4 / 2 / 0.5 / 0.25 by the age of the last
access, plus the query-matching discovered paths absent from history at
the flat score 0.1, sorted in descending score order. The query filter
is a case-insensitive substring test on the basename or the full
path. -/
theorem resolve_spec :
    ∀ (history : List (String × HistoryEntry)) (discovered : List String)
      (now : Int) (query : String),
      List.Sorted (fun a b : ProjectResult => b.score ≤ a.score)
        (resolve history discovered now query) ∧
      (∀ r, r ∈ resolve history discovered now query ↔
        ((∃ pe ∈ history, matchesQuery query (basename pe.1) pe.1 = true ∧
            r = { name := basename pe.1, path := pe.1, score :=
              (if now - pe.2.lastAccessed < 3600 then pe.2.rank * 4
               else if now - pe.2.lastAccessed < 86400 then pe.2.rank * 2
               else if now - pe.2.lastAccessed < 604800 then pe.2.rank * 0.5
               else pe.2.rank * 0.25) }) ∨
         (∃ p ∈ discovered, (∀ e, (p, e) ∉ history) ∧
            matchesQuery query (basename p) p = true ∧
            r = { name := basename p, path := p, score := (0.1 : Rat) }))) := by
  intro history discovered now query
  constructor
  · rw [resolve_eq]
    have hs := sortBy_sorted (fun a b : ProjectResult => decide (b.score ≤ a.score))
      (fun a b h => by
        rw [decide_eq_false_iff_not] at h
        rw [decide_eq_true_eq]
        exact le_of_not_le h)
      (fun a b c h1 h2 => by
        rw [decide_eq_true_eq] at h1 h2 ⊢
        exact le_trans h2 h1)
      ((history.filterMap fun pe =>
        if matchesQuery query (basename pe.1) pe.1 then
          some { name := basename pe.1, path := pe.1, score := frecencyScore pe.2 now }
        else none) ++
       ((discovered.filter fun p => !(history.any fun pe => pe.1 == p)).filterMap fun p =>
         if matchesQuery query (basename p) p then
           some { name := basename p, path := p, score := (0.1 : Rat) }
         else none))
    exact hs.imp fun h => decide_eq_true_eq.mp h
  · intro r
    rw [resolve_eq,
      ((sortBy_perm (fun a b : ProjectResult => decide (b.score ≤ a.score)) _).mem_iff),
      List.mem_append]
    constructor
    · intro h
      rcases h with h | h
      · rcases List.mem_filterMap.mp h with ⟨pe, hpe, heq⟩
        by_cases hc : matchesQuery query (basename pe.1) pe.1
        · rw [if_pos hc] at heq
          refine Or.inl ⟨pe, hpe, hc, ?_⟩
          have hrv : r = { name := basename pe.1, path := pe.1, score := frecencyScore pe.2 now } := (Option.some_inj.mp heq).symm
          rw [hrv]
          rfl
        · rw [if_neg hc] at heq
          cases heq
      · rcases List.mem_filterMap.mp h with ⟨p, hp, heq⟩
        rcases List.mem_filter.mp hp with ⟨hpd, hnot⟩
        by_cases hc : matchesQuery query (basename p) p
        · rw [if_pos hc] at heq
          refine Or.inr ⟨p, hpd, ?_, hc, (Option.some_inj.mp heq).symm⟩
          intro e hmem
          have hfalse : (history.any fun pe => pe.1 == p) = false := by
            cases hany : history.any fun pe => pe.1 == p
            · rfl
            · rw [hany] at hnot
              exact absurd hnot (by decide)
          rw [List.any_eq_false] at hfalse
          exact hfalse (p, e) hmem (by simp)
        · rw [if_neg hc] at heq
          cases heq
    · intro h
      rcases h with ⟨pe, hpe, hc, hr⟩ | ⟨p, hpd, habs, hc, hr⟩
      · refine Or.inl (List.mem_filterMap.mpr ⟨pe, hpe, ?_⟩)
        rw [if_pos hc, hr]
        rfl
      · refine Or.inr (List.mem_filterMap.mpr ⟨p, ?_, ?_⟩)
        · refine List.mem_filter.mpr ⟨hpd, ?_⟩
          have hfalse : (history.any fun pe => pe.1 == p) = false := by
            rw [List.any_eq_false]
            intro pe hpe hbeq
            rw [beq_iff_eq] at hbeq
            exact habs pe.2 (by rw [← hbeq]; exact hpe)
          rw [hfalse]
          rfl
        · rw [if_pos hc, hr]

/-- C5 counterexample: with a single session named "a" (names trivially
pairwise distinct) and the saved order ["a", "a"], `applyOrder` pushes
the session once per saved occurrence, so the result duplicates it and
is no permutation of the input. -/
theorem applyOrder_not_perm_on_duplicate_order :
    (([{ name := "a", windows := [], activity := 0, path := none }] :
        List TmuxSession).map TmuxSession.name).Nodup ∧
    applyOrder ["a", "a"] [{ name := "a", windows := [], activity := 0, path := none }] =
      [{ name := "a", windows := [], activity := 0, path := none },
       { name := "a", windows := [], activity := 0, path := none }] ∧
    ¬(applyOrder ["a", "a"]
        [{ name := "a", windows := [], activity := 0, path := none }]).Perm
      [{ name := "a", windows := [], activity := 0, path := none }] := by
  refine ⟨by decide, by decide, ?_⟩
  intro h
  have := h.length_eq
  simp [applyOrder, byNameGet] at this

/-! ## Helper lemmas for the order store -/

theorem byNameGet_name {sessions : List TmuxSession} {n : String} {s : TmuxSession}
    (h : byNameGet sessions n = some s) : s.name = n := by
  have := List.find?_some h
  simpa using this

theorem byNameGet_mem {sessions : List TmuxSession} {n : String} {s : TmuxSession}
    (h : byNameGet sessions n = some s) : s ∈ sessions := by
  have := List.mem_of_find?_eq_some h
  simpa using this

theorem sessionName_inj {sessions : List TmuxSession}
    (hnames : (sessions.map TmuxSession.name).Nodup) {s t : TmuxSession}
    (hs : s ∈ sessions) (ht : t ∈ sessions) (h : s.name = t.name) : s = t :=
  List.inj_on_of_nodup_map hnames hs ht h

theorem byNameGet_self {sessions : List TmuxSession}
    (hnames : (sessions.map TmuxSession.name).Nodup) {s : TmuxSession} (hs : s ∈ sessions) :
    byNameGet sessions s.name = some s := by
  cases h : byNameGet sessions s.name with
  | none =>
    rw [byNameGet, List.find?_eq_none] at h
    exact absurd (by simp) (h s (List.mem_reverse.mpr hs))
  | some t =>
    have hname := byNameGet_name h
    have hmem := byNameGet_mem h
    rw [sessionName_inj hnames hmem hs hname]

theorem byNameGet_eq_find? {sessions : List TmuxSession}
    (hnames : (sessions.map TmuxSession.name).Nodup) (n : String) :
    byNameGet sessions n = sessions.find? (fun s => s.name == n) := by
  cases h : sessions.find? (fun s => s.name == n) with
  | none =>
    rw [List.find?_eq_none] at h
    rw [byNameGet, List.find?_eq_none]
    intro x hx
    exact h x (List.mem_reverse.mp hx)
  | some t =>
    have hname : t.name = n := by simpa using List.find?_some h
    have hmem : t ∈ sessions := List.mem_of_find?_eq_some h
    rw [← hname]
    exact byNameGet_self hnames hmem

theorem contains_eq_mem (l : List String) (a : String) : l.contains a = true ↔ a ∈ l :=
  List.elem_iff

theorem contains_eq_true (l : List String) (a : String) (h : a ∈ l) : l.contains a = true :=
  (contains_eq_mem l a).mpr h

theorem contains_eq_false (l : List String) (a : String) (h : a ∉ l) : l.contains a = false := by
  cases hc : l.contains a
  · rfl
  · exact absurd ((contains_eq_mem l a).mp hc) h

theorem count_filterMap_byName (sessions : List TmuxSession) (x : TmuxSession)
    (order : List String) :
    List.count x (order.filterMap (byNameGet sessions)) =
      List.countP (fun n => byNameGet sessions n == some x) order := by
  induction order with
  | nil => rfl
  | cons n order ih =>
    rw [List.filterMap_cons, List.countP_cons]
    cases h : byNameGet sessions n with
    | none => simp [ih]
    | some s =>
      rw [List.count_cons, ih]
      simp only [beq_iff_eq, Option.some.injEq]

/-- C5 amended: for sessions with pairwise-distinct names and a saved
order without duplicate names, `applyOrder` is a permutation of the
input, equal to the saved-order sessions (resolved by name) followed by
the sessions whose names are not in the saved order, in server order.
With a duplicated name in the saved order the matching session is
emitted once per occurrence. -/
theorem applyOrder_perm :
    ∀ (order : List String) (sessions : List TmuxSession),
      (sessions.map TmuxSession.name).Nodup → order.Nodup →
      (applyOrder order sessions).Perm sessions ∧
      applyOrder order sessions =
        order.filterMap (fun n => sessions.find? (fun s => s.name == n)) ++
          sessions.filter (fun s => !(order.contains s.name)) := by
  intro order sessions hnames horder
  have hsess : sessions.Nodup := List.Nodup.of_map _ hnames
  constructor
  · rw [List.perm_iff_count]
    intro x
    rw [applyOrder]
    rw [List.count_append, count_filterMap_byName]
    by_cases hx : x ∈ sessions
    · by_cases hmemo : x.name ∈ order
      · have hA : List.countP (fun n => byNameGet sessions n == some x) order = 1 := by
          have hcongr : List.countP (fun n => byNameGet sessions n == some x) order =
              List.countP (fun n => n == x.name) order := by
            refine List.countP_congr ?_
            intro n _
            simp only [beq_iff_eq, Option.some.injEq]
            constructor
            · intro h; exact (byNameGet_name h).symm
            · intro h; rw [h]; exact byNameGet_self hnames hx
          rw [hcongr, ← List.count_eq_countP, List.count_eq_one_of_mem horder hmemo]
        have hB : List.count x (sessions.filter
            (fun s => !((order.filter (fun n => (byNameGet sessions n).isSome)).contains
              s.name))) = 0 := by
          rw [List.count_eq_zero]
          intro hmem
          rcases List.mem_filter.mp hmem with ⟨_, hpred⟩
          have hplaced : x.name ∈ order.filter (fun n => (byNameGet sessions n).isSome) := by
            refine List.mem_filter.mpr ⟨hmemo, ?_⟩
            rw [byNameGet_self hnames hx]
            rfl
          rw [contains_eq_true _ _ hplaced] at hpred
          exact absurd hpred (by decide)
        rw [hA, hB, List.count_eq_one_of_mem hsess hx]
      · have hA : List.countP (fun n => byNameGet sessions n == some x) order = 0 := by
          rw [List.countP_eq_zero]
          intro n hn hbeq
          rw [beq_iff_eq] at hbeq
          exact hmemo (byNameGet_name hbeq ▸ hn)
        have hB : List.count x (sessions.filter
            (fun s => !((order.filter (fun n => (byNameGet sessions n).isSome)).contains
              s.name))) = List.count x sessions := by
          refine List.count_filter ?_
          have hnot : x.name ∉ order.filter (fun n => (byNameGet sessions n).isSome) :=
            fun hmem => hmemo (List.mem_filter.mp hmem).1
          rw [contains_eq_false _ _ hnot]
          rfl
        rw [hA, hB]
        ring
    · have hA : List.countP (fun n => byNameGet sessions n == some x) order = 0 := by
        rw [List.countP_eq_zero]
        intro n hn hbeq
        rw [beq_iff_eq] at hbeq
        exact hx (byNameGet_mem hbeq)
      have hB : List.count x (sessions.filter
          (fun s => !((order.filter (fun n => (byNameGet sessions n).isSome)).contains
            s.name))) = 0 := by
        rw [List.count_eq_zero]
        intro hmem
        exact hx (List.mem_filter.mp hmem).1
      rw [hA, hB, List.count_eq_zero_of_not_mem hx]
  · rw [applyOrder]
    congr 1
    · exact List.filterMap_congr fun n _ => byNameGet_eq_find? hnames n
    · refine List.filter_congr ?_
      intro s hs
      have : ((order.filter (fun n => (byNameGet sessions n).isSome)).contains s.name) =
          (order.contains s.name) := by
        by_cases h : s.name ∈ order
        · have h1 : s.name ∈ order.filter (fun n => (byNameGet sessions n).isSome) := by
            refine List.mem_filter.mpr ⟨h, ?_⟩
            rw [byNameGet_self hnames hs]
            rfl
          rw [contains_eq_true _ _ h1, contains_eq_true _ _ h]
        · have h1 : s.name ∉ order.filter (fun n => (byNameGet sessions n).isSome) :=
            fun hmem => h (List.mem_filter.mp hmem).1
          rw [contains_eq_false _ _ h1, contains_eq_false _ _ h]
      rw [this]

/-- C5 witness: a concrete instantiation of the amended theorem. -/
theorem applyOrder_perm_witness :
    (applyOrder ["b"]
        [{ name := "a", windows := [], activity := 0, path := none },
         { name := "b", windows := [], activity := 1, path := none }]).Perm
      [{ name := "a", windows := [], activity := 0, path := none },
       { name := "b", windows := [], activity := 1, path := none }] ∧
    applyOrder ["b"]
        [{ name := "a", windows := [], activity := 0, path := none },
         { name := "b", windows := [], activity := 1, path := none }] =
      (["b"].filterMap (fun n =>
        ([{ name := "a", windows := [], activity := 0, path := none },
          { name := "b", windows := [], activity := 1, path := none }] :
            List TmuxSession).find? (fun s => s.name == n))) ++
        ([{ name := "a", windows := [], activity := 0, path := none },
          { name := "b", windows := [], activity := 1, path := none }] :
            List TmuxSession).filter (fun s => !((["b"] : List String).contains s.name)) :=
  applyOrder_perm ["b"]
    [{ name := "a", windows := [], activity := 0, path := none },
     { name := "b", windows := [], activity := 1, path := none }]
    (by decide) (by decide)

end Muxtunnel
